import Mathlib

/-!
Verification development for the ppcalc repository (crates `ppcalc` and
`ppcalc_metric`).

Conventions of the embedding:
* `MessageId`, `SourceId` and `DestinationId` are newtype wrappers around
  `u64` in the source; they are modelled as `Nat`.
* timestamps (`PrimitiveDateTime` of the `time` crate) are totally ordered
  instants with nanosecond resolution, and `Duration`s are added to them;
  both are modelled as `Int` nanosecond counts.
* Rust `Vec` becomes `List`, `HashMap` iteration/insertion becomes
  association lists, `HashSet`s of message ids become `List Nat` (only
  membership and cardinality are used).
* the Rust sorts (`sort`, `sort_unstable`, `sort_unstable_by_key`) are
  modelled by `List.insertionSort`, which returns a sorted permutation of
  its input, exactly what the Rust contract guarantees.
* fallible code (`unwrap`, typed errors) returns `Option` / `Except`.
-/

/-- MessageSet (ppcalc_metric/src/containers.rs): a vector of message ids
together with a `sorted` flag. -/
structure MessageSet where
  messages : List Nat
  sorted : Bool
deriving DecidableEq, Repr

namespace MessageSet

/-- MessageSet::new creates an empty set with the `sorted` flag set. -/
def new : MessageSet := ⟨[], true⟩

/-- MessageSet::insert appends the message; the `sorted` flag is cleared when
the previously last element is greater than the appended one. -/
def insert (s : MessageSet) (message : Nat) : MessageSet :=
  { messages := s.messages ++ [message]
    sorted :=
      match s.messages.getLast? with
      | some last => if last > message then false else s.sorted
      | none => s.sorted }

/-- MessageSet::sort sorts the vector if the flag says it is unsorted, then
sets the flag. -/
def sort (s : MessageSet) : MessageSet :=
  { messages := if s.sorted then s.messages else List.insertionSort (· ≤ ·) s.messages
    sorted := true }

/-- MessageSet::len is the length of the vector. -/
def len (s : MessageSet) : Nat := s.messages.length

/-- MessageSet::split_by builds, for every observed label, a bucket by
inserting the labelled messages in traversal order, and finally sorts each
bucket. This function gives the bucket that split_by associates with the
label `g` under the labelling function `indicator`. -/
def splitByGroup {G : Type} [DecidableEq G] (s : MessageSet) (indicator : Nat → G)
    (g : G) : MessageSet :=
  ((s.messages.filter (fun v => decide (indicator v = g))).foldl MessageSet.insert
    MessageSet.new).sort

/-- The inner loop of MessageSet::distance for one element `r` of the right
operand: elements of the left iterator that compare `Less` are skipped, and
the loop ends at the first element that compares `Equal` (an overlap) or
`Greater` (an addition), or when the left iterator is exhausted (an
addition). The element that ended the loop has been taken from the iterator,
so it is gone in the returned remainder even in the `Greater` case: the
source never compares it against later right elements. Returns the remaining
left elements and whether the outcome was an overlap. -/
def advanceLeft (r : Nat) : List Nat → List Nat × Bool
  | [] => ([], false)
  | l :: ls =>
    if l < r then advanceLeft r ls
    else if l = r then (ls, true)
    else (ls, false)

/-- The merge loop inside MessageSet::distance: every right element
contributes one unit, to `overlap` if its inner loop ended on `Equal` and to
`added` otherwise. -/
def distanceLoop (left right : List Nat) : Nat × Nat :=
  match right with
  | [] => (0, 0)
  | r :: rs =>
    let step := advanceLeft r left
    let p := distanceLoop step.1 rs
    if step.2 then (p.1, p.2 + 1) else (p.1 + 1, p.2)

/-- MessageSet::distance computes the (added, overlap) pair by the merge loop
above. The two `assert!(…sorted)` statements at its start appear as
hypotheses of the theorems about it. -/
def distance (s other : MessageSet) : Nat × Nat :=
  distanceLoop s.messages other.messages

/-- Claimed invariant of MessageSet: whenever the `sorted` flag is true, the
underlying vector is non-decreasing. -/
def Inv (s : MessageSet) : Prop :=
  s.sorted = true → s.messages.Sorted (· ≤ ·)

theorem sorted_le_getLast {l : List Nat} {a : Nat} (hs : l.Sorted (· ≤ ·))
    (hl : l.getLast? = some a) : ∀ b ∈ l, b ≤ a := by
  induction l with
  | nil => simp at hl
  | cons x xs ih =>
    intro b hb
    cases xs with
    | nil =>
      simp at hl hb
      omega
    | cons y ys =>
      simp only [List.getLast?_cons_cons] at hl
      rcases List.mem_cons.mp hb with hbx | hbxs
      · subst hbx
        have hxy : ∀ c ∈ y :: ys, b ≤ c := (List.sorted_cons.mp hs).1
        have hmem : a ∈ (y :: ys).getLast? := by simp [hl]
        obtain ⟨hne, ha⟩ := List.mem_getLast?_eq_getLast hmem
        exact hxy a (ha ▸ List.getLast_mem hne)
      · exact ih (List.sorted_cons.mp hs).2 hl b hbxs

theorem Inv_new : Inv MessageSet.new := by
  intro _
  simp [new, List.Sorted]

theorem Inv_insert (s : MessageSet) (x : Nat) (h : Inv s) : Inv (s.insert x) := by
  intro hflag
  simp only [insert] at hflag ⊢
  cases hlast : s.messages.getLast? with
  | none =>
    have : s.messages = [] := List.getLast?_eq_none_iff.mp hlast
    simp [this, List.Sorted]
  | some last =>
    rw [hlast] at hflag
    by_cases hgt : last > x
    · simp [hgt] at hflag
    · simp [hgt] at hflag
      have hsorted := h hflag
      rw [List.Sorted, List.pairwise_append]
      refine ⟨hsorted, List.pairwise_singleton _ _, ?_⟩
      intro a ha b hb
      rw [List.mem_singleton] at hb
      subst hb
      exact le_trans (sorted_le_getLast hsorted hlast a ha) (by omega)

theorem Inv_sort (s : MessageSet) (h : Inv s) : Inv s.sort := by
  intro _
  simp only [sort]
  by_cases hflag : s.sorted
  · simpa [hflag] using h hflag
  · simp only [hflag, if_false]
    exact List.sorted_insertionSort (· ≤ ·) s.messages

theorem Inv_foldl_insert (l : List Nat) (s : MessageSet) (h : Inv s) :
    Inv (l.foldl MessageSet.insert s) := by
  induction l generalizing s with
  | nil => exact h
  | cons x xs ih => exact ih (s.insert x) (Inv_insert s x h)

theorem Inv_splitByGroup {G : Type} [DecidableEq G] (s : MessageSet)
    (indicator : Nat → G) (g : G) : Inv (s.splitByGroup indicator g) := by
  exact Inv_sort _ (Inv_foldl_insert _ _ Inv_new)

end MessageSet

/-- C9: invariant of MessageSet: whenever the internal `sorted` flag is true,
the vector of message ids is non-decreasing; `new()` establishes it,
`insert()` and `sort()` preserve it, and every bucket returned by
`split_by()` satisfies it (hence the sortedness assertions at the start of
`distance()` cannot fail on operands whose flag is true). -/
theorem messageSet_sorted_flag_invariant :
    MessageSet.Inv MessageSet.new ∧
    (∀ (s : MessageSet) (x : Nat), MessageSet.Inv s → MessageSet.Inv (s.insert x)) ∧
    (∀ s : MessageSet, MessageSet.Inv s → MessageSet.Inv s.sort) ∧
    (∀ {G : Type} [DecidableEq G] (s : MessageSet) (indicator : Nat → G) (g : G),
      MessageSet.Inv (s.splitByGroup indicator g)) :=
  ⟨MessageSet.Inv_new, MessageSet.Inv_insert, MessageSet.Inv_sort,
    fun s indicator g => MessageSet.Inv_splitByGroup s indicator g⟩

/-- C9 witness: the invariant theorem applied to the concrete set {1,3} with 4
inserted (a flag-preserving insert). -/
theorem messageSet_sorted_flag_invariant_witness :
    MessageSet.Inv (MessageSet.insert ⟨[1, 3], true⟩ 4) :=
  messageSet_sorted_flag_invariant.2.1 ⟨[1, 3], true⟩ 4 (by intro h; decide)


/-- C4: the claim fails on the code. For the sorted operands a = {2} and
b = {1, 2} we have b minus a = {1} and intersection {2}, so the claim
demands (added, overlap) = (1, 1); the code returns (2, 0), because the
merge loop discards the left element 2 after it compares Greater against the
right element 1, and therefore never recognises the overlap at 2. -/
theorem distance_failing_input :
    MessageSet.distance ⟨[2], true⟩ ⟨[1, 2], true⟩ = (2, 0) ∧
    (([1, 2].filter (fun x => decide (x ∉ ([2] : List Nat)))).length,
      ([1, 2].filter (fun x => decide (x ∈ ([2] : List Nat)))).length) = (1, 1) ∧
    ((2, 0) : Nat × Nat) ≠ (1, 1) := by
  decide

/-- Every element of the right operand contributes exactly one unit, either
to added or to overlap. -/
theorem distanceLoop_fst_add_snd (left right : List Nat) :
    (MessageSet.distanceLoop left right).1 + (MessageSet.distanceLoop left right).2
      = right.length := by
  induction right generalizing left with
  | nil => rfl
  | cons r rs ih =>
    simp only [MessageSet.distanceLoop]
    rcases h : (MessageSet.advanceLeft r left).2 with _ | _
    · simp only [Bool.false_eq_true, if_false, List.length_cons]
      have := ih (MessageSet.advanceLeft r left).1
      omega
    · simp only [if_true, List.length_cons]
      have := ih (MessageSet.advanceLeft r left).1
      omega

/-- C7: for every two sorted MessageSets a and b, the pair (added, overlap)
returned by a.distance(b) satisfies added + overlap = b.len(), and both
components are non-negative (they are Nat counts). -/
theorem distance_added_add_overlap_eq_len (a b : MessageSet)
    (ha : a.messages.Sorted (· ≤ ·)) (hb : b.messages.Sorted (· ≤ ·)) :
    (a.distance b).1 + (a.distance b).2 = b.len ∧
    0 ≤ (a.distance b).1 ∧ 0 ≤ (a.distance b).2 :=
  ⟨distanceLoop_fst_add_snd a.messages b.messages, Nat.zero_le _, Nat.zero_le _⟩

/-- C7 witness: the sum law applied to the concrete sorted sets {1,3,4} and
{2,3,5}. -/
theorem distance_added_add_overlap_eq_len_witness :
    (MessageSet.distance ⟨[1, 3, 4], true⟩ ⟨[2, 3, 5], true⟩).1 +
      (MessageSet.distance ⟨[1, 3, 4], true⟩ ⟨[2, 3, 5], true⟩).2
      = MessageSet.len ⟨[2, 3, 5], true⟩ :=
  (distance_added_add_overlap_eq_len ⟨[1, 3, 4], true⟩ ⟨[2, 3, 5], true⟩
    (by decide) (by decide)).1

/-- TraceEntry (ppcalc_metric/src/trace.rs). -/
structure TraceEntry where
  m_id : Nat
  source_id : Nat
  source_timestamp : Int
  destination_id : Nat
  destination_timestamp : Int
deriving DecidableEq, Repr

/-- TraceBuildError (ppcalc_metric/src/trace.rs). -/
inductive TraceBuildError where
  | EmptyTrace : TraceBuildError
  | NotSortedByArrival : Nat → TraceBuildError
  | MessageIdsHaveGaps : Nat → TraceBuildError
  | MessageIdsNotUnique : Nat → TraceBuildError
  | SourceIdsHaveGaps : Nat → TraceBuildError
deriving DecidableEq, Repr

/-- Trace (ppcalc_metric/src/trace.rs). The source and destination mappings
are Vecs indexed by message id. -/
structure Trace where
  entries : List TraceEntry
  max_msgid : Nat
  source_mapping : List Nat
  destination_mapping : List Nat
  max_sourceid : Nat
deriving DecidableEq, Repr

namespace TraceBuilder

/-- The message id check loop of TraceBuilder::build: the entries, sorted by
id, are scanned against the running counter next_msg. As written in the
source, the `Ordering::Greater` arm returns MessageIdsNotUnique and the
`Ordering::Less` arm returns MessageIdsHaveGaps. On success the final value
of the counter is returned. -/
def checkMsgIds : Nat → List TraceEntry → Except TraceBuildError Nat
  | next, [] => .ok next
  | next, e :: rest =>
    if e.m_id = next then checkMsgIds (next + 1) rest
    else if e.m_id > next then .error (.MessageIdsNotUnique e.m_id)
    else .error (.MessageIdsHaveGaps e.m_id)

/-- The arrival time check loop of TraceBuilder::build, carrying the previous
destination timestamp. -/
def checkArrival : Option Int → List TraceEntry → Except TraceBuildError Unit
  | _, [] => .ok ()
  | none, e :: rest => checkArrival (some e.destination_timestamp) rest
  | some p, e :: rest =>
    if p > e.destination_timestamp then .error (.NotSortedByArrival e.m_id)
    else checkArrival (some e.destination_timestamp) rest

/-- The source id check loop of TraceBuilder::build: the enumerated sorted
distinct source ids are compared against their positions. -/
def checkSources : Nat → List Nat → Except TraceBuildError Unit
  | _, [] => .ok ()
  | i, s :: rest =>
    if i ≠ s then .error (.SourceIdsHaveGaps s) else checkSources (i + 1) rest

/-- The distinct source ids in ascending order. The source collects the ids
into a HashSet and sorts the resulting Vec; sorting first and then removing
the duplicates yields the same list. -/
def sortedSources (es : List TraceEntry) : List Nat :=
  (List.insertionSort (· ≤ ·) (es.map (·.source_id))).dedup

/-- TraceBuilder::build: sort the entries by message id, fail on an empty
trace, run the three validation scans, then assemble the Trace. The final
`sources.last().unwrap()` cannot fail because the trace is non-empty; it is
modelled with a default of 0. -/
def build (es0 : List TraceEntry) : Except TraceBuildError Trace :=
  let es := List.insertionSort (fun a b => a.m_id ≤ b.m_id) es0
  if es.length = 0 then .error .EmptyTrace
  else
    match checkMsgIds 0 es with
    | .error e => .error e
    | .ok next =>
      match checkArrival none es with
      | .error e => .error e
      | .ok _ =>
        match checkSources 0 (sortedSources es) with
        | .error e => .error e
        | .ok _ =>
          .ok { entries := es
                max_msgid := next - 1
                source_mapping := es.map (·.source_id)
                destination_mapping := es.map (·.destination_id)
                max_sourceid := (sortedSources es).getLast?.getD 0 }

/-- The renumbering loop of TraceBuilder::fix: the i-th entry (in the current
order) gets message id i. -/
def renumberFrom : Nat → List TraceEntry → List TraceEntry
  | _, [] => []
  | i, e :: rest => { e with m_id := i } :: renumberFrom (i + 1) rest

/-- TraceBuilder::fix: sort the entries by destination timestamp, then
renumber the message ids to 0..N in that order. -/
def fix (es : List TraceEntry) : List TraceEntry :=
  renumberFrom 0
    (List.insertionSort (fun a b => a.destination_timestamp ≤ b.destination_timestamp) es)

end TraceBuilder

/-- Trace::message_sent: index the entries Vec directly by the message id and
return the source timestamp found there, if any. -/
def Trace.message_sent (t : Trace) (message_id : Nat) : Option Int :=
  (t.entries[message_id]?).map (·.source_timestamp)

/-- C5: the claim fails and the code side is the slip: for entries with
message ids 0, 1 and 3 (a gap at 2, no id used twice), build() returns
MessageIdsNotUnique(3) — the `Ordering::Greater` arm, which detects the gap,
returns the error whose own message reads "Message ID used multiple times",
while the claimed MessageIdsHaveGaps error is returned by the `Less` arm,
which fires on duplicated ids. The claimed value 2 (the first missing id)
also differs from the reported offending entry id 3. -/
theorem build_gap_failing_input :
    TraceBuilder.build [⟨0, 0, 0, 0, 0⟩, ⟨1, 0, 0, 0, 0⟩, ⟨3, 0, 0, 0, 0⟩]
      = .error (.MessageIdsNotUnique 3) ∧
    TraceBuildError.MessageIdsNotUnique 3 ≠ TraceBuildError.MessageIdsHaveGaps 2 :=
  ⟨rfl, by decide⟩

instance : IsTotal TraceEntry
    (fun a b => a.destination_timestamp ≤ b.destination_timestamp) :=
  ⟨fun a b => Int.le_total _ _⟩

instance : IsTrans TraceEntry
    (fun a b => a.destination_timestamp ≤ b.destination_timestamp) :=
  ⟨fun _ _ _ hab hbc => le_trans hab hbc⟩

theorem mem_renumberFrom {b : TraceEntry} :
    ∀ {i : Nat} {l : List TraceEntry}, b ∈ TraceBuilder.renumberFrom i l →
      ∃ a ∈ l, b.destination_timestamp = a.destination_timestamp := by
  intro i l
  induction l generalizing i with
  | nil => simp [TraceBuilder.renumberFrom]
  | cons e rest ih =>
    intro hb
    simp only [TraceBuilder.renumberFrom, List.mem_cons] at hb
    rcases hb with hb | hb
    · exact ⟨e, List.mem_cons_self e rest, by simp [hb]⟩
    · obtain ⟨a, ha, hts⟩ := ih hb
      exact ⟨a, List.mem_cons_of_mem e ha, hts⟩

theorem renumberFrom_sorted {l : List TraceEntry} {i : Nat}
    (h : l.Sorted (fun a b => a.destination_timestamp ≤ b.destination_timestamp)) :
    (TraceBuilder.renumberFrom i l).Sorted
      (fun a b => a.destination_timestamp ≤ b.destination_timestamp) := by
  induction l generalizing i with
  | nil => simp [TraceBuilder.renumberFrom]
  | cons e rest ih =>
    rw [List.sorted_cons] at h
    simp only [TraceBuilder.renumberFrom, List.sorted_cons]
    refine ⟨?_, ih h.2⟩
    intro b hb
    obtain ⟨a, ha, hts⟩ := mem_renumberFrom hb
    simpa [hts] using h.1 a ha

theorem renumberFrom_renumberFrom : ∀ (i : Nat) (l : List TraceEntry),
    TraceBuilder.renumberFrom i (TraceBuilder.renumberFrom i l)
      = TraceBuilder.renumberFrom i l
  | _, [] => rfl
  | i, _ :: rest => by
    simp only [TraceBuilder.renumberFrom]
    exact congrArg (List.cons _) (renumberFrom_renumberFrom (i + 1) rest)

/-- C8: TraceBuilder::fix is idempotent: applying it twice leaves the entries
(ids, sources, destinations and timestamps, in order) identical to applying
it once. After one fix the entries are sorted by destination timestamp, so
the second sort leaves them in place, and renumbering an already renumbered
list assigns the same ids again. -/
theorem fix_idempotent (es : List TraceEntry) :
    TraceBuilder.fix (TraceBuilder.fix es) = TraceBuilder.fix es := by
  unfold TraceBuilder.fix
  have hsorted :
      (List.insertionSort (fun a b => a.destination_timestamp ≤ b.destination_timestamp)
        es).Sorted (fun a b => a.destination_timestamp ≤ b.destination_timestamp) :=
    List.sorted_insertionSort _ es
  have h1 := renumberFrom_sorted (i := 0) hsorted
  rw [List.Sorted.insertionSort_eq h1, renumberFrom_renumberFrom]

theorem checkMsgIds_ok_length :
    ∀ (n : Nat) (l : List TraceEntry) (m : Nat),
      TraceBuilder.checkMsgIds n l = .ok m → m = n + l.length := by
  intro n l
  induction l generalizing n with
  | nil =>
    intro m h
    simp only [TraceBuilder.checkMsgIds] at h
    cases h
    simp
  | cons e rest ih =>
    intro m h
    simp only [TraceBuilder.checkMsgIds] at h
    split at h
    · have := ih (n + 1) m h
      simp only [List.length_cons]
      omega
    · split at h <;> simp at h

theorem build_ok_length {es : List TraceEntry} {t : Trace}
    (h : TraceBuilder.build es = .ok t) :
    t.entries.length = t.max_msgid + 1 ∧ 0 < t.entries.length := by
  simp only [TraceBuilder.build] at h
  generalize hes : List.insertionSort (fun a b => a.m_id ≤ b.m_id) es = esv at h
  split at h
  · simp at h
  · rename_i hne
    cases hmsg : TraceBuilder.checkMsgIds 0 esv with
    | error e => rw [hmsg] at h; simp at h
    | ok next =>
      rw [hmsg] at h
      cases harr : TraceBuilder.checkArrival none esv with
      | error e => rw [harr] at h; simp at h
      | ok u =>
        rw [harr] at h
        cases hsrc : TraceBuilder.checkSources 0 (TraceBuilder.sortedSources esv) with
        | error e => rw [hsrc] at h; simp at h
        | ok u2 =>
          rw [hsrc] at h
          cases h
          have := checkMsgIds_ok_length _ _ _ hmsg
          simp only
          constructor <;> omega

/-- C10: for every trace returned by TraceBuilder::build and every message id,
Trace::message_sent(id) returns Some of the source_timestamp of the entry at
position id exactly when id is at most max_message_id (equivalently, id is
less than the number of entries), and returns None otherwise instead of
failing. -/
theorem message_sent_spec (es : List TraceEntry) (t : Trace)
    (h : TraceBuilder.build es = .ok t) (id : Nat) :
    (id ≤ t.max_msgid ↔ id < t.entries.length) ∧
    (∀ hlt : id < t.entries.length,
      t.message_sent id = some (t.entries.get ⟨id, hlt⟩).source_timestamp) ∧
    (t.entries.length ≤ id → t.message_sent id = none) := by
  obtain ⟨hlen, hpos⟩ := build_ok_length h
  refine ⟨by omega, ?_, ?_⟩
  · intro hlt
    simp [Trace.message_sent, List.getElem?_eq_getElem hlt]
  · intro hge
    simp [Trace.message_sent, List.getElem?_eq_none hge]

/-- A concrete one-entry trace used as witness input. -/
def witnessTrace : Trace := ⟨[⟨0, 0, 5, 1, 7⟩], 0, [0], [1], 0⟩

/-- C10 witness: the message_sent specification applied to the concrete trace
built from one entry, at message id 0. -/
theorem message_sent_spec_witness :
    (0 ≤ witnessTrace.max_msgid ↔ 0 < witnessTrace.entries.length) ∧
    (∀ hlt : 0 < witnessTrace.entries.length,
      witnessTrace.message_sent 0
        = some (witnessTrace.entries.get ⟨0, hlt⟩).source_timestamp) ∧
    (witnessTrace.entries.length ≤ 0 → witnessTrace.message_sent 0 = none) :=
  message_sent_spec [⟨0, 0, 5, 1, 7⟩] witnessTrace (by rfl) 0

/-- One iteration of the destination loop in
compute_relation_ship_anonymity_sets (ppcalc_metric/src/metric.rs, lines
327-364): for a delta entry (destination, (added, overlap)) the destination
is skipped when it is absent from the previous candidate map; otherwise the
candidate count is computed as added + previous_remaining — the overlap
component of the delta is not consulted — and the destination is dropped
when that count is 0 and otherwise kept with count - 1. -/
def intersectDest (prev : List (Nat × Nat)) (next : List (Nat × Nat))
    (dst : Nat × Nat × Nat) : List (Nat × Nat) :=
  match prev.lookup dst.1 with
  | none => next
  | some r =>
    let candidates := dst.2.1 + r
    if candidates = 0 then next else next ++ [(dst.1, candidates - 1)]

/-- The per-message body of the intersector: fold the delta map into a fresh
candidate map. -/
def intersectStep (prev : List (Nat × Nat)) (delta : List (Nat × Nat × Nat)) :
    List (Nat × Nat) :=
  delta.foldl (intersectDest prev) []

/-- The message loop of the intersector for one source, recorded with the
full candidate map after each message (the source pushes the map's len() as
the emitted anonymity set size and then replaces prev by the map). -/
def intersectEmissions :
    List (Nat × Nat) → List (Nat × List (Nat × Nat × Nat)) → List (Nat × List (Nat × Nat))
  | _, [] => []
  | prev, (m, delta) :: rest =>
    let next := intersectStep prev delta
    (m, next) :: intersectEmissions next rest

/-- First-message bootstrap of compute_relation_ship_anonymity_sets: every
destination of the first message's delta is pretended to have been seen
before with zero remaining candidate messages. -/
def initPrev (msgs : List (Nat × List (Nat × Nat × Nat))) : List (Nat × Nat) :=
  match msgs with
  | [] => []
  | (_, first) :: _ => first.map (fun d => (d.1, 0))

/-- The intersector for one source: the body of the parallel map inside
compute_relation_ship_anonymity_sets. -/
def intersectRun (msgs : List (Nat × List (Nat × Nat × Nat))) :
    List (Nat × List (Nat × Nat)) :=
  intersectEmissions (initPrev msgs) msgs

/-- The emitted (message, anonymity set size) pairs, as pushed into
anon_set_sizes by the source. -/
def intersectSizes (msgs : List (Nat × List (Nat × Nat × Nat))) : List (Nat × Nat) :=
  (intersectRun msgs).map (fun e => (e.1, e.2.length))

theorem lookup_cons_ite {β : Type} {d : Nat} {p : Nat × β} {l : List (Nat × β)} :
    (p :: l).lookup d = if d = p.1 then some p.2 else l.lookup d := by
  obtain ⟨k, v⟩ := p
  by_cases h : d = k
  · subst h
    simp [List.lookup]
  · simp [List.lookup, beq_eq_false_iff_ne.mpr h, h]

theorem lookup_append_ne {d k : Nat} {v : Nat} (acc : List (Nat × Nat)) (h : d ≠ k) :
    (acc ++ [(k, v)]).lookup d = acc.lookup d := by
  induction acc with
  | nil =>
    simp only [List.nil_append, lookup_cons_ite, if_neg h]
  | cons p rest ih =>
    simp only [List.cons_append, lookup_cons_ite]
    by_cases hp : d = p.1 <;> simp [hp, ih]

theorem lookup_append_self {d : Nat} {v : Nat} (acc : List (Nat × Nat))
    (h : acc.lookup d = none) : (acc ++ [(d, v)]).lookup d = some v := by
  induction acc with
  | nil => simp [lookup_cons_ite]
  | cons p rest ih =>
    rw [lookup_cons_ite] at h
    by_cases hp : d = p.1
    · rw [if_pos hp] at h
      cases h
    · rw [if_neg hp] at h
      simp only [List.cons_append, lookup_cons_ite, if_neg hp]
      exact ih h

theorem lookup_intersectDest_ne {prev acc : List (Nat × Nat)} {dst : Nat × Nat × Nat}
    {d : Nat} (h : d ≠ dst.1) :
    (intersectDest prev acc dst).lookup d = acc.lookup d := by
  unfold intersectDest
  cases prev.lookup dst.1 with
  | none => rfl
  | some r =>
    simp only
    by_cases hc : dst.2.1 + r = 0
    · rw [if_pos hc]
    · rw [if_neg hc]
      exact lookup_append_ne acc h

theorem lookup_foldl_not_mem {prev : List (Nat × Nat)} {d : Nat} :
    ∀ (delta : List (Nat × Nat × Nat)) (acc : List (Nat × Nat)),
      d ∉ delta.map (fun x => x.1) →
      (delta.foldl (intersectDest prev) acc).lookup d = acc.lookup d := by
  intro delta
  induction delta with
  | nil => intro acc _; rfl
  | cons dst rest ih =>
    intro acc hd
    simp only [List.map_cons, List.mem_cons] at hd
    push_neg at hd
    simp only [List.foldl_cons]
    rw [ih _ hd.2, lookup_intersectDest_ne hd.1]

theorem lookup_intersectStep_aux {prev : List (Nat × Nat)} {d r a o : Nat}
    (hr : prev.lookup d = some r) :
    ∀ (delta : List (Nat × Nat × Nat)) (acc : List (Nat × Nat)),
      (delta.map (fun x => x.1)).Nodup →
      delta.lookup d = some (a, o) →
      acc.lookup d = none →
      (delta.foldl (intersectDest prev) acc).lookup d
        = if a + r = 0 then none else some (a + r - 1) := by
  intro delta
  induction delta with
  | nil => intro acc _ hd; simp [List.lookup] at hd
  | cons dst rest ih =>
    intro acc hnd hd hacc
    simp only [List.map_cons, List.nodup_cons] at hnd
    by_cases hdd : dst.1 = d
    · have hdst : dst = (d, a, o) := by
        rw [lookup_cons_ite, if_pos hdd.symm] at hd
        obtain ⟨k, v⟩ := dst
        simp only at hdd hd
        cases hd
        simp [hdd]
      subst hdst
      simp only [List.foldl_cons]
      have hrest : d ∉ rest.map (fun x => x.1) := by simpa using hnd.1
      rw [lookup_foldl_not_mem rest _ hrest]
      unfold intersectDest
      simp only [hr]
      by_cases hc : a + r = 0
      · simp only [hc, if_pos rfl]
        simpa [hc] using hacc
      · rw [if_neg (by simpa using hc), if_neg hc]
        exact lookup_append_self acc hacc
    · have hd' : rest.lookup d = some (a, o) := by
        rwa [lookup_cons_ite, if_neg (fun h => hdd h.symm)] at hd
      simp only [List.foldl_cons]
      exact ih _ hnd.2 hd' (by rw [lookup_intersectDest_ne (fun h => hdd h.symm)]; exact hacc)

/-- C1 counterexample: the claim is false on the code at these inputs.
First input: previous remaining count r = 1 for destination 7, delta
(added, overlap) = (0, 0); the claimed candidate count is
added + min(r, overlap) = 0, so the claim demands that 7 be dropped, but the
code computes added + r = 1 and keeps 7 with remaining count 0. Second
input: r = 2, delta (0, 1); the claim demands the stored remaining count
0 + min(2, 1) - 1 = 0, but the code stores 0 + 2 - 1 = 1. -/
theorem intersector_counterexample :
    (intersectStep [(7, 1)] [(7, 0, 0)]).lookup 7 = some 0 ∧ 0 + min 1 0 = 0 ∧
    (intersectStep [(7, 2)] [(7, 0, 1)]).lookup 7 = some 1 ∧
    0 + min 2 1 - 1 = 0 ∧ (1 : Nat) ≠ 0 := by
  refine ⟨rfl, rfl, rfl, rfl, by decide⟩

/-- C1 (amended): for every source and every message, when the intersector
processes a message whose delta maps destination d to (a, o) and d is still
a candidate with previous remaining count r, it computes the candidate count
as a + r (the overlap component o is ignored); it drops d exactly when a + r
is 0, and otherwise stores a + r - 1 as d's remaining count for the next
step. The emission for the message is the map so obtained. -/
theorem intersector_step_amended (prev : List (Nat × Nat))
    (delta : List (Nat × Nat × Nat)) (m : Nat)
    (rest : List (Nat × List (Nat × Nat × Nat))) (d r a o : Nat)
    (hnd : (delta.map (fun x => x.1)).Nodup)
    (hd : delta.lookup d = some (a, o))
    (hr : prev.lookup d = some r) :
    (intersectStep prev delta).lookup d
      = (if a + r = 0 then none else some (a + r - 1)) ∧
    intersectEmissions prev ((m, delta) :: rest)
      = (m, intersectStep prev delta) :: intersectEmissions (intersectStep prev delta) rest :=
  ⟨lookup_intersectStep_aux hr delta [] hnd hd rfl, rfl⟩

/-- C1 witness: the amended step theorem applied to the concrete state where
destination 5 has remaining count 2 and the delta is (1, 3): the candidate
count is 1 + 2 = 3 and the stored count is 2. -/
theorem intersector_step_amended_witness :
    (intersectStep [(5, 2)] [(5, 1, 3)]).lookup 5
      = (if 1 + 2 = 0 then none else some (1 + 2 - 1)) ∧
    intersectEmissions [(5, 2)] [(9, [(5, 1, 3)])]
      = (9, intersectStep [(5, 2)] [(5, 1, 3)])
          :: intersectEmissions (intersectStep [(5, 2)] [(5, 1, 3)]) [] :=
  intersector_step_amended [(5, 2)] [(5, 1, 3)] 9 [] 5 2 1 3 (by decide) rfl rfl

theorem lookup_some_mem_keys {l : List (Nat × Nat)} {k v : Nat}
    (h : l.lookup k = some v) : k ∈ l.map (fun p => p.1) := by
  induction l with
  | nil => cases h
  | cons p rest ih =>
    rw [lookup_cons_ite] at h
    by_cases hp : k = p.1
    · simp [hp]
    · rw [if_neg hp] at h
      simp [ih h]

theorem keys_intersectDest {prev acc : List (Nat × Nat)} {dst : Nat × Nat × Nat} :
    ∀ d, d ∈ (intersectDest prev acc dst).map (fun p => p.1) →
      d ∈ acc.map (fun p => p.1) ∨ d ∈ prev.map (fun p => p.1) := by
  intro d hd
  unfold intersectDest at hd
  cases hpl : prev.lookup dst.1 with
  | none =>
    rw [hpl] at hd
    exact Or.inl hd
  | some r =>
    rw [hpl] at hd
    simp only at hd
    by_cases hc : dst.2.1 + r = 0
    · rw [if_pos hc] at hd
      exact Or.inl hd
    · rw [if_neg hc] at hd
      rw [List.map_append] at hd
      rcases List.mem_append.mp hd with h | h
      · exact Or.inl h
      · simp only [List.map_cons, List.map_nil, List.mem_singleton] at h
        subst h
        exact Or.inr (lookup_some_mem_keys hpl)

theorem keys_foldl_subset {prev : List (Nat × Nat)} :
    ∀ (delta : List (Nat × Nat × Nat)) (acc : List (Nat × Nat)),
      (∀ d, d ∈ acc.map (fun p => p.1) → d ∈ prev.map (fun p => p.1)) →
      ∀ d, d ∈ (delta.foldl (intersectDest prev) acc).map (fun p => p.1) →
        d ∈ prev.map (fun p => p.1) := by
  intro delta
  induction delta with
  | nil => intro acc hacc; exact hacc
  | cons dst rest ih =>
    intro acc hacc d hd
    simp only [List.foldl_cons] at hd
    refine ih _ ?_ d hd
    intro x hx
    rcases keys_intersectDest x hx with h | h
    · exact hacc x h
    · exact h

theorem keys_intersectStep_subset {prev : List (Nat × Nat)}
    {delta : List (Nat × Nat × Nat)} :
    ∀ d, d ∈ (intersectStep prev delta).map (fun p => p.1) →
      d ∈ prev.map (fun p => p.1) :=
  keys_foldl_subset delta [] (by simp)

theorem intersectEmissions_pairwise (msgs : List (Nat × List (Nat × Nat × Nat))) :
    ∀ prev,
      (∀ e ∈ intersectEmissions prev msgs, ∀ d,
        d ∈ e.2.map (fun p => p.1) → d ∈ prev.map (fun p => p.1)) ∧
      List.Pairwise
        (fun x y => ∀ d, d ∈ y.2.map (fun p => p.1) → d ∈ x.2.map (fun p => p.1))
        (intersectEmissions prev msgs) := by
  induction msgs with
  | nil =>
    intro prev
    exact ⟨by simp [intersectEmissions], by simp [intersectEmissions]⟩
  | cons md rest ih =>
    intro prev
    obtain ⟨m, delta⟩ := md
    obtain ⟨ihall, ihpw⟩ := ih (intersectStep prev delta)
    constructor
    · intro e he d hd
      simp only [intersectEmissions, List.mem_cons] at he
      rcases he with he | he
      · subst he
        exact keys_intersectStep_subset d hd
      · exact keys_intersectStep_subset d (ihall e he d hd)
    · simp only [intersectEmissions]
      exact List.Pairwise.cons (fun e he d hd => ihall e he d hd) ihpw

/-- C3: for every source, the sequence of destination candidate sets emitted
by the intersector (the key set of the candidate map after each message) is
monotonically non-increasing: every later emitted key set is contained in
every earlier one — in particular in the immediately preceding one — so a
destination that is absent at some step never reappears at a later step. -/
theorem intersector_destination_sets_monotone
    (msgs : List (Nat × List (Nat × Nat × Nat))) :
    List.Pairwise
      (fun x y => ∀ d, d ∈ y.2.map (fun p => p.1) → d ∈ x.2.map (fun p => p.1))
      (intersectRun msgs) :=
  (intersectEmissions_pairwise msgs (initPrev msgs)).2

/-- The binary search loop behind slice::partition_point as called in
output_anonymity_sets (ppcalc/src/analyze.rs): left and right delimit the
remaining range; when the predicate holds at the midpoint the search
continues right of it, otherwise left of it, and the final left is returned.
The fuel argument only bounds the number of iterations; it is never
exhausted when it starts at least at right - left, which shrinks by at least
one per iteration. -/
def partitionPointLoop {α : Type} [Inhabited α] (pred : α → Bool) (v : List α) :
    Nat → Nat → Nat → Nat
  | 0, left, _ => left
  | fuel + 1, left, right =>
    if left < right then
      let mid := left + (right - left) / 2
      if pred (v.getD mid default) then partitionPointLoop pred v fuel (mid + 1) right
      else partitionPointLoop pred v fuel left mid
    else left

/-- slice::partition_point over the whole slice. -/
def partitionPoint {α : Type} [Inhabited α] (pred : α → Bool) (v : List α) : Nat :=
  partitionPointLoop pred v v.length 0 v.length

/-- The deanonymized_at_num value computed by output_anonymity_sets
(ppcalc/src/analyze.rs lines 122-130): the partition point of the per-source
emission list v under the predicate size() > 1, or null when that point is
the whole list. sz abstracts the size() method of the JsonAnonymitySet
implementations (Vec::len for full sets, the value itself for sizes). -/
def deanonymizedAtNum {T : Type} [Inhabited T] (sz : T → Nat) (v : List (Nat × T)) :
    Option Nat :=
  let index := partitionPoint (fun x => decide (1 < sz x.2)) v
  if v.length ≤ index then none else some index

theorem partitionPointLoop_eq {α : Type} [Inhabited α] (pred : α → Bool)
    (v : List α) (k : Nat)
    (hA : ∀ i, i < k → pred (v.getD i default) = true)
    (hB : ∀ i, k ≤ i → i < v.length → pred (v.getD i default) = false) :
    ∀ (fuel left right : Nat), right - left ≤ fuel → left ≤ k → k ≤ right →
      right ≤ v.length → partitionPointLoop pred v fuel left right = k := by
  intro fuel
  induction fuel with
  | zero =>
    intro left right hf hl hk hr
    simp only [partitionPointLoop]
    omega
  | succ n ih =>
    intro left right hf hl hk hr
    simp only [partitionPointLoop]
    by_cases hlr : left < right
    · rw [if_pos hlr]
      by_cases hmid : left + (right - left) / 2 < k
      · rw [if_pos (hA _ hmid)]
        exact ih _ _ (by omega) (by omega) hk hr
      · rw [if_neg (by rw [hB _ (by omega) (by omega)]; simp)]
        exact ih _ _ (by omega) hl (by omega) (by omega)
    · rw [if_neg hlr]
      omega

theorem takeWhile_prefix_true {α : Type} [Inhabited α] (pred : α → Bool) :
    ∀ (v : List α) (i : Nat), i < (v.takeWhile pred).length →
      pred (v.getD i default) = true := by
  intro v
  induction v with
  | nil =>
    intro i hi
    simp at hi
  | cons x xs ih =>
    intro i hi
    by_cases hx : pred x
    · rw [List.takeWhile_cons_of_pos hx] at hi
      cases i with
      | zero => simpa using hx
      | succ j =>
        simp only [List.length_cons] at hi
        simpa using ih j (by omega)
    · rw [List.takeWhile_cons_of_neg hx] at hi
      simp at hi

theorem takeWhile_head_false {α : Type} [Inhabited α] (pred : α → Bool) :
    ∀ (v : List α), (v.takeWhile pred).length < v.length →
      pred (v.getD (v.takeWhile pred).length default) = false := by
  intro v
  induction v with
  | nil =>
    intro hlen
    simp at hlen
  | cons x xs ih =>
    intro hlen
    by_cases hx : pred x
    · rw [List.takeWhile_cons_of_pos hx] at hlen ⊢
      simp only [List.length_cons] at hlen ⊢
      simpa using ih (by omega)
    · rw [List.takeWhile_cons_of_neg hx]
      simpa using hx

/-- C6 counterexample: the claim is false on the code. For the per-source
emission sequence [(0, size 2), (1, size 1)] (sizes non-increasing, as the
pipeline produces), the first message at which the anonymity set becomes a
singleton and stays one is the second message, so the claim demands the
1-based index 2; the code stores the partition point, which is the 0-based
index 1. -/
theorem deanonymized_at_num_counterexample :
    deanonymizedAtNum (fun n : Nat => n) [(0, 2), (1, 1)] = some 1 ∧
    some (1 : Nat) ≠ some 2 :=
  ⟨rfl, by decide⟩

/-- C6 (amended): for every per-source emission sequence with non-increasing
anonymity set sizes (which the pipeline guarantees), the deanonymized_at_num
field equals the 0-based index of the first message whose anonymity set size
is at most 1 — the count of leading messages with size strictly greater
than 1 — and is null exactly when every message has size greater than 1.
In particular it is 0-based rather than 1-based, and a message whose set
has become empty (size 0, never a singleton) also stops the count. -/
theorem deanonymized_at_num_amended {T : Type} [Inhabited T] (sz : T → Nat)
    (v : List (Nat × T))
    (hmono : List.Pairwise (fun x y => sz y.2 ≤ sz x.2) v) :
    deanonymizedAtNum sz v
      = (if v.length ≤ (v.takeWhile (fun x => decide (1 < sz x.2))).length then none
         else some (v.takeWhile (fun x => decide (1 < sz x.2))).length) ∧
    (∀ i, i < (v.takeWhile (fun x => decide (1 < sz x.2))).length →
      1 < sz (v.getD i default).2) ∧
    ((v.takeWhile (fun x => decide (1 < sz x.2))).length < v.length →
      sz (v.getD ((v.takeWhile (fun x => decide (1 < sz x.2))).length) default).2 ≤ 1) := by
  set p := fun x : Nat × T => decide (1 < sz x.2) with hp
  set k := (v.takeWhile p).length with hk
  have hA : ∀ i, i < k → p (v.getD i default) = true :=
    fun i hi => takeWhile_prefix_true p v i hi
  have hklen : k ≤ v.length := (List.takeWhile_sublist p).length_le
  have hB : ∀ i, k ≤ i → i < v.length → p (v.getD i default) = false := by
    intro i hki hilen
    by_cases hik : i = k
    · subst hik
      exact takeWhile_head_false p v (by omega)
    · have hkl : k < i := by omega
      have h0 : p (v.getD k default) = false := takeWhile_head_false p v (by omega)
      have hget := List.pairwise_iff_get.mp hmono ⟨k, by omega⟩ ⟨i, by omega⟩
        (Fin.mk_lt_mk.mpr hkl)
      rw [List.getD_eq_getElem v default hilen]
      rw [List.getD_eq_getElem v default (by omega : k < v.length)] at h0
      simp only [hp, decide_eq_false_iff_not, not_lt] at h0 ⊢
      simp only [List.get_eq_getElem] at hget
      omega
  have hloop := partitionPointLoop_eq p v k hA hB v.length 0 v.length
    (by omega) (by omega) hklen le_rfl
  refine ⟨?_, ?_, ?_⟩
  · simp only [deanonymizedAtNum, partitionPoint, hloop]
  · intro i hi
    have := hA i hi
    simpa [hp] using this
  · intro hlt
    have := takeWhile_head_false p v hlt
    simpa [hp] using this

/-- C6 witness: the amended theorem applied to the concrete sequence with one
message of size 2, where the partition point is the whole list and the field
is null. -/
theorem deanonymized_at_num_amended_witness :
    deanonymizedAtNum (fun n : Nat => n) [(5, 2)] = none := by
  have h := (deanonymized_at_num_amended (fun n : Nat => n) [(5, 2)] (by decide)).1
  rw [h]
  decide

/-- ProcessingEvent (ppcalc_metric/src/metric.rs). The rank encodes the
EventTypeAndId variant in its declaration order: 0 = AddSourceMessage,
1 = AddDestinationMessage, 2 = RemoveSourceMessage; pid is the id wrapped by
the variant (a source id for ranks 0 and 2, a destination id for rank 1). -/
structure ProcessingEvent where
  rank : Nat
  pid : Nat
  ts : Int
  m_id : Nat
deriving DecidableEq, Repr

/-- The strict comparison of ProcessingEvent::partial_cmp (metric.rs lines
62-69): timestamps first; on equal timestamps the derived order of
EventTypeAndId, which compares the variant rank and then the payload id. -/
def evLt (a b : ProcessingEvent) : Prop :=
  a.ts < b.ts ∨ (a.ts = b.ts ∧ (a.rank < b.rank ∨ (a.rank = b.rank ∧ a.pid < b.pid)))

instance : DecidableRel evLt := fun a b =>
  inferInstanceAs (Decidable (a.ts < b.ts ∨ (a.ts = b.ts ∧
    (a.rank < b.rank ∨ (a.rank = b.rank ∧ a.pid < b.pid)))))

/-- The comparison under which the event queue ends up sorted: a before b is
admissible whenever b is not strictly less than a. -/
def evLe (a b : ProcessingEvent) : Prop := ¬ evLt b a

instance : DecidableRel evLe := fun a b =>
  inferInstanceAs (Decidable (¬ evLt b a))

instance : IsTotal ProcessingEvent evLe :=
  ⟨fun a b => by unfold evLe evLt; omega⟩

instance : IsTrans ProcessingEvent evLe :=
  ⟨fun a b c hab hbc => by unfold evLe evLt at *; omega⟩

/-- The AddSourceMessage event pushed for a trace entry of the considered
source: it carries source_timestamp + min_delay. -/
def addSourceEvent (minD : Int) (e : TraceEntry) : ProcessingEvent :=
  ⟨0, e.source_id, e.source_timestamp + minD, e.m_id⟩

/-- The RemoveSourceMessage event pushed for a trace entry of the considered
source: it carries source_timestamp + max_delay + 1 nanosecond (the source
adds Duration::nanoseconds(1) to max_delay before the loop). -/
def removeSourceEvent (maxD : Int) (e : TraceEntry) : ProcessingEvent :=
  ⟨2, e.source_id, e.source_timestamp + maxD + 1, e.m_id⟩

/-- The AddDestinationMessage event pushed for every trace entry into every
queue: it carries the destination_timestamp. -/
def addDestEvent (e : TraceEntry) : ProcessingEvent :=
  ⟨1, e.destination_id, e.destination_timestamp, e.m_id⟩

/-- compute_event_queues (metric.rs lines 412-456) restricted to the queue of
one source s, before sorting: iterating the entries, an AddSourceMessage and
a RemoveSourceMessage event are pushed for every entry of s, and an
AddDestinationMessage event is pushed into every queue for every entry. -/
def eventQueue (es : List TraceEntry) (s : Nat) (minD maxD : Int) :
    List ProcessingEvent :=
  es.flatMap (fun e =>
    (if e.source_id = s then [addSourceEvent minD e, removeSourceEvent maxD e] else [])
      ++ [addDestEvent e])

/-- The event queue of source s after the final sort with the ordering of
ProcessingEvent::partial_cmp. -/
def sortedEventQueue (es : List TraceEntry) (s : Nat) (minD maxD : Int) :
    List ProcessingEvent :=
  List.insertionSort evLe (eventQueue es s minD maxD)

/-- One step of the event loop in compute_message_anonymity_sets (metric.rs
lines 137-203). The state is current_message_anon_sets, mapping each live
source message to its accumulated anonymity set. AddSourceMessage inserts an
empty set; AddDestinationMessage appends the arriving message id to every
live set; any other rank is RemoveSourceMessage, which removes the set and
emits it — its unwrap of the removed value is modelled by the none outcome.
Returns the optional emission and the new state. -/
def stepEvent (st : List (Nat × List Nat)) (ev : ProcessingEvent) :
    Option (Option (Nat × List Nat) × List (Nat × List Nat)) :=
  if ev.rank = 0 then some (none, (ev.m_id, []) :: st)
  else if ev.rank = 1 then some (none, st.map (fun p => (p.1, p.2 ++ [ev.m_id])))
  else
    match st.lookup ev.m_id with
    | none => none
    | some a => some (some (ev.m_id, a), st.eraseP (fun p => decide (p.1 = ev.m_id)))

/-- The event loop: processes the events in order, returning the emitted
(message id, anonymity set) pairs in emission order together with the final
state, or none when an unwrap fails. -/
def runProc : List ProcessingEvent → List (Nat × List Nat) →
    Option (List (Nat × List Nat) × List (Nat × List Nat))
  | [], st => some ([], st)
  | ev :: rest, st =>
    match stepEvent st ev with
    | none => none
    | some (em, st2) =>
      match runProc rest st2 with
      | none => none
      | some (out, stF) => some (em.toList ++ out, stF)

/-- The per-source window anonymity sets A(m) accumulated by
compute_message_anonymity_sets for source s, as removed from
current_message_anon_sets at each RemoveSourceMessage event — the sets the
source then splits by destination and turns into deltas. -/
def messageAnonSets (es : List TraceEntry) (s : Nat) (minD maxD : Int) :
    Option (List (Nat × List Nat)) :=
  (runProc (sortedEventQueue es s minD maxD) []).map (fun r => r.1)

/-- The destination arrivals recorded while scanning an event segment: the
message ids of its AddDestinationMessage events. -/
def destAdds (L : List ProcessingEvent) : List Nat :=
  (L.filter (fun ev => ev.rank == 1)).map (fun ev => ev.m_id)

theorem lookup_map_snd {β : Type} (f : β → β) (st : List (Nat × β)) (m : Nat) :
    (st.map (fun p => (p.1, f p.2))).lookup m = (st.lookup m).map f := by
  induction st with
  | nil => rfl
  | cons p rest ih =>
    simp only [List.map_cons, lookup_cons_ite]
    by_cases h : m = p.1
    · simp [h]
    · simp [h, ih]

theorem lookup_eraseP_ne {β : Type} {k m : Nat} (h : m ≠ k) (st : List (Nat × β)) :
    (st.eraseP (fun p => decide (p.1 = k))).lookup m = st.lookup m := by
  induction st with
  | nil => rfl
  | cons p rest ih =>
    by_cases hp : p.1 = k
    · rw [List.eraseP_cons_of_pos (by simpa using hp)]
      rw [lookup_cons_ite, if_neg (by omega)]
    · rw [List.eraseP_cons_of_neg (by simpa using hp)]
      rw [lookup_cons_ite, lookup_cons_ite]
      by_cases hm : m = p.1 <;> simp [hm, ih]

theorem keys_eraseP {β : Type} {k m : Nat} (st : List (Nat × β))
    (h : m ∈ st.map (fun p => p.1)) (hne : m ≠ k) :
    m ∈ (st.eraseP (fun p => decide (p.1 = k))).map (fun p => p.1) := by
  induction st with
  | nil => simp at h
  | cons p rest ih =>
    simp only [List.map_cons, List.mem_cons] at h
    by_cases hp : p.1 = k
    · rw [List.eraseP_cons_of_pos (by simpa using hp)]
      rcases h with h | h
      · omega
      · exact h
    · rw [List.eraseP_cons_of_neg (by simpa using hp)]
      simp only [List.map_cons, List.mem_cons]
      rcases h with h | h
      · exact Or.inl h
      · exact Or.inr (ih h)

theorem lookup_isSome_of_mem_keys {β : Type} {m : Nat} (st : List (Nat × β))
    (h : m ∈ st.map (fun p => p.1)) : ∃ v, st.lookup m = some v := by
  induction st with
  | nil => simp at h
  | cons p rest ih =>
    simp only [List.map_cons, List.mem_cons] at h
    rw [lookup_cons_ite]
    by_cases hm : m = p.1
    · exact ⟨p.2, if_pos hm⟩
    · rw [if_neg hm]
      exact ih (h.resolve_left hm)

theorem lookup_append_left_none {β : Type} {m : Nat} (A B : List (Nat × β))
    (h : m ∉ A.map (fun p => p.1)) : (A ++ B).lookup m = B.lookup m := by
  induction A with
  | nil => rfl
  | cons p rest ih =>
    simp only [List.map_cons, List.mem_cons] at h
    push_neg at h
    rw [List.cons_append, lookup_cons_ite, if_neg h.1]
    exact ih h.2

theorem runProc_append (A B : List ProcessingEvent) (st : List (Nat × List Nat)) :
    runProc (A ++ B) st =
      match runProc A st with
      | none => none
      | some (out1, st1) =>
        match runProc B st1 with
        | none => none
        | some (out2, stF) => some (out1 ++ out2, stF) := by
  induction A generalizing st with
  | nil =>
    simp only [List.nil_append, runProc]
    cases hB : runProc B st with
    | none => rfl
    | some r =>
      obtain ⟨o, f⟩ := r
      simp
  | cons ev rest ih =>
    simp only [List.cons_append, runProc]
    cases hs : stepEvent st ev with
    | none => rfl
    | some r =>
      obtain ⟨em, st2⟩ := r
      simp only
      rw [show rest.append B = rest ++ B from rfl, ih st2]
      cases h1 : runProc rest st2 with
      | none => rfl
      | some r1 =>
        obtain ⟨out1, st1⟩ := r1
        cases h2 : runProc B st1 with
        | none => simp [h2]
        | some r2 =>
          obtain ⟨out2, stF⟩ := r2
          simp [h2, List.append_assoc]

theorem runProc_live {m : Nat} :
    ∀ (L : List ProcessingEvent) (st : List (Nat × List Nat)) (acc : List Nat)
      (out stF : List (Nat × List Nat)),
      (∀ ev ∈ L, ev.rank = 0 → ev.m_id ≠ m) →
      (∀ ev ∈ L, ¬ev.rank = 0 → ¬ev.rank = 1 → ev.m_id ≠ m) →
      st.lookup m = some acc →
      runProc L st = some (out, stF) →
      stF.lookup m = some (acc ++ destAdds L) := by
  intro L
  induction L with
  | nil =>
    intro st acc out stF _ _ hst h
    simp only [runProc, Option.some.injEq, Prod.mk.injEq] at h
    obtain ⟨-, hstF⟩ := h
    subst hstF
    simpa [destAdds] using hst
  | cons ev rest ih =>
    intro st acc out stF hAS hRM hst h
    simp only [runProc] at h
    have hASr : ∀ e ∈ rest, e.rank = 0 → e.m_id ≠ m :=
      fun e he => hAS e (List.mem_cons_of_mem ev he)
    have hRMr : ∀ e ∈ rest, ¬e.rank = 0 → ¬e.rank = 1 → e.m_id ≠ m :=
      fun e he => hRM e (List.mem_cons_of_mem ev he)
    by_cases h0 : ev.rank = 0
    · simp only [stepEvent, if_pos h0] at h
      cases hrec : runProc rest ((ev.m_id, []) :: st) with
      | none => rw [hrec] at h; cases h
      | some r =>
        obtain ⟨out1, st1⟩ := r
        rw [hrec] at h
        simp only [Option.some.injEq, Prod.mk.injEq] at h
        obtain ⟨-, hstF⟩ := h
        subst hstF
        have hne : m ≠ ev.m_id := fun he => hAS ev (List.mem_cons_self ev rest) h0 he.symm
        have hst2 : ((ev.m_id, []) :: st).lookup m = some acc := by
          rw [lookup_cons_ite, if_neg hne]
          exact hst
        have := ih _ acc _ _ hASr hRMr hst2 hrec
        simpa [destAdds, h0] using this
    · by_cases h1 : ev.rank = 1
      · simp only [stepEvent, if_neg h0, if_pos h1] at h
        cases hrec : runProc rest (st.map (fun p => (p.1, p.2 ++ [ev.m_id]))) with
        | none => rw [hrec] at h; cases h
        | some r =>
          obtain ⟨out1, st1⟩ := r
          rw [hrec] at h
          simp only [Option.some.injEq, Prod.mk.injEq] at h
          obtain ⟨-, hstF⟩ := h
          subst hstF
          have hst2 : (st.map (fun p => (p.1, p.2 ++ [ev.m_id]))).lookup m
              = some (acc ++ [ev.m_id]) := by
            have hmap := lookup_map_snd (fun l => l ++ [ev.m_id]) st m
            rw [hst] at hmap
            exact hmap
          have := ih _ (acc ++ [ev.m_id]) _ _ hASr hRMr hst2 hrec
          rw [this]
          simp [destAdds, h0, h1, List.append_assoc]
      · simp only [stepEvent, if_neg h0, if_neg h1] at h
        cases hlk : st.lookup ev.m_id with
        | none => rw [hlk] at h; cases h
        | some a =>
          rw [hlk] at h
          simp only at h
          cases hrec : runProc rest (st.eraseP (fun p => decide (p.1 = ev.m_id))) with
          | none => rw [hrec] at h; cases h
          | some r =>
            obtain ⟨out1, st1⟩ := r
            rw [hrec] at h
            simp only [Option.some.injEq, Prod.mk.injEq] at h
            obtain ⟨-, hstF⟩ := h
            subst hstF
            have hne : m ≠ ev.m_id :=
              fun he => hRM ev (List.mem_cons_self ev rest) h0 h1 he.symm
            have hst2 : (st.eraseP (fun p => decide (p.1 = ev.m_id))).lookup m
                = some acc := by
              rw [lookup_eraseP_ne hne]
              exact hst
            have := ih _ acc _ _ hASr hRMr hst2 hrec
            rw [this]
            simp [destAdds, h0, h1]

theorem runProc_out_keys :
    ∀ (L : List ProcessingEvent) (st out stF : List (Nat × List Nat)),
      runProc L st = some (out, stF) →
      ∀ x ∈ out.map (fun p => p.1),
        ∃ ev ∈ L, ¬ev.rank = 0 ∧ ¬ev.rank = 1 ∧ ev.m_id = x := by
  intro L
  induction L with
  | nil =>
    intro st out stF h x hx
    simp only [runProc, Option.some.injEq, Prod.mk.injEq] at h
    obtain ⟨hout, -⟩ := h
    subst hout
    simp at hx
  | cons ev rest ih =>
    intro st out stF h x hx
    simp only [runProc] at h
    by_cases h0 : ev.rank = 0
    · simp only [stepEvent, if_pos h0] at h
      cases hrec : runProc rest ((ev.m_id, []) :: st) with
      | none => rw [hrec] at h; cases h
      | some r =>
        obtain ⟨out1, st1⟩ := r
        rw [hrec] at h
        simp only [Option.some.injEq, Prod.mk.injEq] at h
        obtain ⟨hout, -⟩ := h
        subst hout
        simp only [Option.toList_none, List.nil_append] at hx
        obtain ⟨e, he, hp⟩ := ih _ _ _ hrec x hx
        exact ⟨e, List.mem_cons_of_mem ev he, hp⟩
    · by_cases h1 : ev.rank = 1
      · simp only [stepEvent, if_neg h0, if_pos h1] at h
        cases hrec : runProc rest (st.map (fun p => (p.1, p.2 ++ [ev.m_id]))) with
        | none => rw [hrec] at h; cases h
        | some r =>
          obtain ⟨out1, st1⟩ := r
          rw [hrec] at h
          simp only [Option.some.injEq, Prod.mk.injEq] at h
          obtain ⟨hout, -⟩ := h
          subst hout
          simp only [Option.toList_none, List.nil_append] at hx
          obtain ⟨e, he, hp⟩ := ih _ _ _ hrec x hx
          exact ⟨e, List.mem_cons_of_mem ev he, hp⟩
      · simp only [stepEvent, if_neg h0, if_neg h1] at h
        cases hlk : st.lookup ev.m_id with
        | none => rw [hlk] at h; cases h
        | some a =>
          rw [hlk] at h
          simp only at h
          cases hrec : runProc rest (st.eraseP (fun p => decide (p.1 = ev.m_id))) with
          | none => rw [hrec] at h; cases h
          | some r =>
            obtain ⟨out1, st1⟩ := r
            rw [hrec] at h
            simp only [Option.some.injEq, Prod.mk.injEq] at h
            obtain ⟨hout, -⟩ := h
            subst hout
            simp only [Option.toList_some, List.cons_append, List.nil_append,
              List.map_cons, List.mem_cons] at hx
            rcases hx with hx | hx
            · exact ⟨ev, List.mem_cons_self ev rest, h0, h1, hx.symm⟩
            · obtain ⟨e, he, hp⟩ := ih _ _ _ hrec x hx
              exact ⟨e, List.mem_cons_of_mem ev he, hp⟩

/-- Class predicate: the event is the AddSourceMessage event of message m. -/
def isASb (m : Nat) (ev : ProcessingEvent) : Bool :=
  ev.rank == 0 && ev.m_id == m

/-- Class predicate: the event is handled by the RemoveSourceMessage arm (its
rank is neither 0 nor 1) and concerns message m. -/
def isRMb (m : Nat) (ev : ProcessingEvent) : Bool :=
  !(ev.rank == 0) && !(ev.rank == 1) && ev.m_id == m

/-- Class predicate: the event is the AddDestinationMessage event of message
m. -/
def isADb (m : Nat) (ev : ProcessingEvent) : Bool :=
  ev.rank == 1 && ev.m_id == m

theorem keys_map_snd {β : Type} (f : β → β) (st : List (Nat × β)) :
    (st.map (fun p => (p.1, f p.2))).map (fun p => p.1) = st.map (fun p => p.1) := by
  simp [List.map_map]

theorem runProc_success :
    ∀ (L : List ProcessingEvent) (st : List (Nat × List Nat)),
      List.Pairwise evLe L →
      (∀ m a b, a ∈ L → b ∈ L → isASb m a → isRMb m b → evLt a b) →
      (∀ m, L.countP (isRMb m) ≤ 1) →
      (∀ m, (∃ b ∈ L, isRMb m b = true) →
        (∃ a ∈ L, isASb m a = true) ∨ m ∈ st.map (fun p => p.1)) →
      ∃ out stF, runProc L st = some (out, stF) := by
  intro L
  induction L with
  | nil =>
    intro st _ _ _ _
    exact ⟨[], st, rfl⟩
  | cons ev rest ih =>
    intro st hpw hstrict hcnt hinv
    rw [List.pairwise_cons] at hpw
    have hstrictr : ∀ m a b, a ∈ rest → b ∈ rest → isASb m a → isRMb m b → evLt a b :=
      fun m a b ha hb => hstrict m a b (List.mem_cons_of_mem _ ha)
        (List.mem_cons_of_mem _ hb)
    have hcntr : ∀ m, rest.countP (isRMb m) ≤ 1 := by
      intro m
      have hc := hcnt m
      rw [List.countP_cons] at hc
      omega
    by_cases h0 : ev.rank = 0
    · have hstep : stepEvent st ev = some (none, (ev.m_id, []) :: st) := by
        simp [stepEvent, h0]
      have hinvr : ∀ m, (∃ b ∈ rest, isRMb m b = true) →
          (∃ a ∈ rest, isASb m a = true) ∨
            m ∈ ((ev.m_id, ([] : List Nat)) :: st).map (fun p => p.1) := by
        intro m hm
        obtain ⟨b, hb, hbRM⟩ := hm
        rcases hinv m ⟨b, List.mem_cons_of_mem _ hb, hbRM⟩ with ⟨a, ha, haAS⟩ | hkeys
        · rcases List.mem_cons.mp ha with heq | hmem
          · right
            subst heq
            simp only [isASb, Bool.and_eq_true, beq_iff_eq] at haAS
            simp [haAS.2]
          · exact Or.inl ⟨a, hmem, haAS⟩
        · right
          simp only [List.map_cons, List.mem_cons]
          exact Or.inr hkeys
      obtain ⟨out1, st1, hrec⟩ := ih ((ev.m_id, []) :: st) hpw.2 hstrictr hcntr hinvr
      exact ⟨out1, st1, by simp [runProc, hstep, hrec]⟩
    · by_cases h1 : ev.rank = 1
      · have hstep : stepEvent st ev
            = some (none, st.map (fun p => (p.1, p.2 ++ [ev.m_id]))) := by
          simp [stepEvent, h0, h1]
        have hinvr : ∀ m, (∃ b ∈ rest, isRMb m b = true) →
            (∃ a ∈ rest, isASb m a = true) ∨
              m ∈ (st.map (fun p => (p.1, p.2 ++ [ev.m_id]))).map (fun p => p.1) := by
          intro m hm
          obtain ⟨b, hb, hbRM⟩ := hm
          rcases hinv m ⟨b, List.mem_cons_of_mem _ hb, hbRM⟩ with ⟨a, ha, haAS⟩ | hkeys
          · rcases List.mem_cons.mp ha with heq | hmem
            · subst heq
              simp [isASb, h0] at haAS
            · exact Or.inl ⟨a, hmem, haAS⟩
          · right
            have hmap := keys_map_snd (fun l => l ++ [ev.m_id]) st
            rw [hmap]
            exact hkeys
        obtain ⟨out1, st1, hrec⟩ := ih (st.map (fun p => (p.1, p.2 ++ [ev.m_id])))
          hpw.2 hstrictr hcntr hinvr
        exact ⟨out1, st1, by simp [runProc, hstep, hrec]⟩
      · have hevRM : isRMb ev.m_id ev = true := by
          simp [isRMb, h0, h1]
        have hlk : ∃ a, st.lookup ev.m_id = some a := by
          rcases hinv ev.m_id ⟨ev, List.mem_cons_self ev rest, hevRM⟩
            with ⟨a, ha, haAS⟩ | hkeys
          · rcases List.mem_cons.mp ha with heq | hmem
            · subst heq
              simp [isASb, h0] at haAS
            · exfalso
              have hlt : evLt a ev := hstrict ev.m_id a ev
                (List.mem_cons_of_mem _ hmem) (List.mem_cons_self ev rest) haAS hevRM
              exact hpw.1 a hmem hlt
          · exact lookup_isSome_of_mem_keys st hkeys
        obtain ⟨a0, ha0⟩ := hlk
        have hstep : stepEvent st ev
            = some (some (ev.m_id, a0), st.eraseP (fun p => decide (p.1 = ev.m_id))) := by
          simp only [stepEvent, if_neg h0, if_neg h1, ha0]
        have hinvr : ∀ m, (∃ b ∈ rest, isRMb m b = true) →
            (∃ a ∈ rest, isASb m a = true) ∨
              m ∈ (st.eraseP (fun p => decide (p.1 = ev.m_id))).map (fun p => p.1) := by
          intro m hm
          obtain ⟨b, hb, hbRM⟩ := hm
          rcases hinv m ⟨b, List.mem_cons_of_mem _ hb, hbRM⟩ with ⟨a2, ha2, haAS⟩ | hkeys
          · rcases List.mem_cons.mp ha2 with heq | hmem
            · subst heq
              simp [isASb, h0] at haAS
            · exact Or.inl ⟨a2, hmem, haAS⟩
          · right
            have hne : m ≠ ev.m_id := by
              intro he
              have hposr : 0 < rest.countP (isRMb ev.m_id) :=
                List.countP_pos_iff.mpr ⟨b, hb, he ▸ hbRM⟩
              have hc := hcnt ev.m_id
              rw [List.countP_cons, hevRM] at hc
              rw [if_pos rfl] at hc
              omega
            exact keys_eraseP st hkeys hne
        obtain ⟨out1, st1, hrec⟩ := ih (st.eraseP (fun p => decide (p.1 = ev.m_id)))
          hpw.2 hstrictr hcntr hinvr
        exact ⟨(ev.m_id, a0) :: out1, st1, by simp [runProc, hstep, hrec]⟩

theorem mem_eventQueue_AS {e : TraceEntry} {es : List TraceEntry} {s : Nat}
    {minD maxD : Int} (he : e ∈ es) (hs : e.source_id = s) :
    addSourceEvent minD e ∈ eventQueue es s minD maxD := by
  rw [eventQueue, List.mem_flatMap]
  exact ⟨e, he, by simp [hs]⟩

theorem mem_eventQueue_RM {e : TraceEntry} {es : List TraceEntry} {s : Nat}
    {minD maxD : Int} (he : e ∈ es) (hs : e.source_id = s) :
    removeSourceEvent maxD e ∈ eventQueue es s minD maxD := by
  rw [eventQueue, List.mem_flatMap]
  exact ⟨e, he, by simp [hs]⟩

theorem mem_eventQueue_AD {e : TraceEntry} {es : List TraceEntry} {s : Nat}
    {minD maxD : Int} (he : e ∈ es) :
    addDestEvent e ∈ eventQueue es s minD maxD := by
  rw [eventQueue, List.mem_flatMap]
  refine ⟨e, he, ?_⟩
  by_cases hs : e.source_id = s <;> simp [hs]

theorem rank0_mem_eventQueue {ev : ProcessingEvent} {es : List TraceEntry} {s : Nat}
    {minD maxD : Int} (h : ev ∈ eventQueue es s minD maxD) (h0 : ev.rank = 0) :
    ∃ e ∈ es, e.source_id = s ∧ ev = addSourceEvent minD e := by
  rw [eventQueue, List.mem_flatMap] at h
  obtain ⟨e, he, hin⟩ := h
  by_cases hs : e.source_id = s
  · simp [hs] at hin
    rcases hin with hin | hin | hin
    · exact ⟨e, he, hs, hin⟩
    · rw [hin] at h0; simp [removeSourceEvent] at h0
    · rw [hin] at h0; simp [addDestEvent] at h0
  · simp [hs] at hin
    rw [hin] at h0
    simp [addDestEvent] at h0

theorem rank1_mem_eventQueue {ev : ProcessingEvent} {es : List TraceEntry} {s : Nat}
    {minD maxD : Int} (h : ev ∈ eventQueue es s minD maxD) (h1 : ev.rank = 1) :
    ∃ e ∈ es, ev = addDestEvent e := by
  rw [eventQueue, List.mem_flatMap] at h
  obtain ⟨e, he, hin⟩ := h
  by_cases hs : e.source_id = s
  · simp [hs] at hin
    rcases hin with hin | hin | hin
    · rw [hin] at h1; simp [addSourceEvent] at h1
    · rw [hin] at h1; simp [removeSourceEvent] at h1
    · exact ⟨e, he, hin⟩
  · simp [hs] at hin
    exact ⟨e, he, hin⟩

theorem rankRM_mem_eventQueue {ev : ProcessingEvent} {es : List TraceEntry} {s : Nat}
    {minD maxD : Int} (h : ev ∈ eventQueue es s minD maxD) (h0 : ¬ev.rank = 0)
    (h1 : ¬ev.rank = 1) :
    ∃ e ∈ es, e.source_id = s ∧ ev = removeSourceEvent maxD e := by
  rw [eventQueue, List.mem_flatMap] at h
  obtain ⟨e, he, hin⟩ := h
  by_cases hs : e.source_id = s
  · simp [hs] at hin
    rcases hin with hin | hin | hin
    · rw [hin] at h0; simp [addSourceEvent] at h0
    · exact ⟨e, he, hs, hin⟩
    · rw [hin] at h1; simp [addDestEvent] at h1
  · simp [hs] at hin
    rw [hin] at h1
    simp [addDestEvent] at h1

theorem countP_eventQueue_AS (es : List TraceEntry) (s : Nat) (minD maxD : Int)
    (m : Nat) :
    (eventQueue es s minD maxD).countP (isASb m)
      = es.countP (fun e => decide (e.source_id = s) && (e.m_id == m)) := by
  induction es with
  | nil => rfl
  | cons e rest ih =>
    rw [eventQueue, List.flatMap_cons, List.countP_append, List.countP_cons]
    rw [eventQueue] at ih
    rw [ih]
    by_cases hsrc : e.source_id = s
    · by_cases hm : e.m_id = m
      · simp [hsrc, hm, isASb, addSourceEvent, removeSourceEvent, addDestEvent,
          List.countP_cons]
        omega
      · simp [hsrc, hm, isASb, addSourceEvent, removeSourceEvent, addDestEvent,
          List.countP_cons]
    · simp [hsrc, isASb, addDestEvent, List.countP_cons]

theorem countP_eventQueue_RM (es : List TraceEntry) (s : Nat) (minD maxD : Int)
    (m : Nat) :
    (eventQueue es s minD maxD).countP (isRMb m)
      = es.countP (fun e => decide (e.source_id = s) && (e.m_id == m)) := by
  induction es with
  | nil => rfl
  | cons e rest ih =>
    rw [eventQueue, List.flatMap_cons, List.countP_append, List.countP_cons]
    rw [eventQueue] at ih
    rw [ih]
    by_cases hsrc : e.source_id = s
    · by_cases hm : e.m_id = m
      · simp [hsrc, hm, isRMb, addSourceEvent, removeSourceEvent, addDestEvent,
          List.countP_cons]
        omega
      · simp [hsrc, hm, isRMb, addSourceEvent, removeSourceEvent, addDestEvent,
          List.countP_cons]
    · simp [hsrc, isRMb, addDestEvent, List.countP_cons]

theorem countP_eventQueue_AD (es : List TraceEntry) (s : Nat) (minD maxD : Int)
    (m : Nat) :
    (eventQueue es s minD maxD).countP (isADb m)
      = es.countP (fun e => e.m_id == m) := by
  induction es with
  | nil => rfl
  | cons e rest ih =>
    rw [eventQueue, List.flatMap_cons, List.countP_append, List.countP_cons]
    rw [eventQueue] at ih
    rw [ih]
    by_cases hsrc : e.source_id = s
    · by_cases hm : e.m_id = m
      · simp [hsrc, hm, isADb, addSourceEvent, removeSourceEvent, addDestEvent,
          List.countP_cons]
        omega
      · simp [hsrc, hm, isADb, addSourceEvent, removeSourceEvent, addDestEvent,
          List.countP_cons]
    · simp [hsrc, isADb, addDestEvent, List.countP_cons]
      by_cases hm : e.m_id = m <;> simp [hm] <;> omega

theorem countP_mid_le_one {es : List TraceEntry}
    (h : (es.map (fun e => e.m_id)).Nodup) (m : Nat) :
    es.countP (fun e => e.m_id == m) ≤ 1 := by
  induction es with
  | nil => simp
  | cons e rest ih =>
    rw [List.countP_cons]
    simp only [List.map_cons, List.nodup_cons] at h
    by_cases hm : e.m_id = m
    · have hzero : rest.countP (fun e => e.m_id == m) = 0 := by
        rw [List.countP_eq_zero]
        intro a hamem hab
        simp only [beq_iff_eq] at hab
        have hmm : a.m_id ∈ rest.map (fun x => x.m_id) := List.mem_map_of_mem _ hamem
        rw [hab, ← hm] at hmm
        exact h.1 hmm
      simp [hm, hzero]
    · have := ih h.2
      simp [hm]
      omega

theorem evLt_AS_RM (em : TraceEntry) {minD maxD : Int} (h : minD ≤ maxD) :
    evLt (addSourceEvent minD em) (removeSourceEvent maxD em) := by
  left
  show em.source_timestamp + minD < em.source_timestamp + maxD + 1
  omega

theorem evLt_AS_AD_iff (em ed : TraceEntry) (minD : Int) :
    evLt (addSourceEvent minD em) (addDestEvent ed) ↔
      em.source_timestamp + minD ≤ ed.destination_timestamp := by
  simp [evLt, addSourceEvent, addDestEvent]
  omega

theorem evLt_AD_AS_iff (em ed : TraceEntry) (minD : Int) :
    evLt (addDestEvent ed) (addSourceEvent minD em) ↔
      ed.destination_timestamp < em.source_timestamp + minD := by
  simp [evLt, addSourceEvent, addDestEvent]

theorem evLt_AD_RM_iff (em ed : TraceEntry) (maxD : Int) :
    evLt (addDestEvent ed) (removeSourceEvent maxD em) ↔
      ed.destination_timestamp ≤ em.source_timestamp + maxD + 1 := by
  simp [evLt, addDestEvent, removeSourceEvent]
  omega

theorem evLt_RM_AD_iff (em ed : TraceEntry) (maxD : Int) :
    evLt (removeSourceEvent maxD em) (addDestEvent ed) ↔
      em.source_timestamp + maxD + 1 < ed.destination_timestamp := by
  simp [evLt, addDestEvent, removeSourceEvent]

theorem checkMsgIds_ok_map :
    ∀ (n : Nat) (l : List TraceEntry) (m : Nat),
      TraceBuilder.checkMsgIds n l = .ok m →
      l.map (fun e => e.m_id) = List.range' n l.length := by
  intro n l
  induction l generalizing n with
  | nil =>
    intro m _
    rfl
  | cons e rest ih =>
    intro m h
    simp only [TraceBuilder.checkMsgIds] at h
    split at h
    · rename_i heq
      simp only [List.map_cons, List.length_cons, List.range']
      rw [heq, ih (n + 1) m h]
    · split at h <;> simp at h

theorem build_ok_nodup {es : List TraceEntry} {t : Trace}
    (h : TraceBuilder.build es = .ok t) :
    (t.entries.map (fun e => e.m_id)).Nodup := by
  simp only [TraceBuilder.build] at h
  generalize hes : List.insertionSort (fun a b => a.m_id ≤ b.m_id) es = esv at h
  split at h
  · simp at h
  · cases hmsg : TraceBuilder.checkMsgIds 0 esv with
    | error e => rw [hmsg] at h; simp at h
    | ok next =>
      rw [hmsg] at h
      cases harr : TraceBuilder.checkArrival none esv with
      | error e => rw [harr] at h; simp at h
      | ok u =>
        rw [harr] at h
        cases hsrc : TraceBuilder.checkSources 0 (TraceBuilder.sortedSources esv) with
        | error e => rw [hsrc] at h; simp at h
        | ok u2 =>
          rw [hsrc] at h
          cases h
          simp only
          rw [checkMsgIds_ok_map 0 esv next hmsg]
          exact List.nodup_range' 0 esv.length

theorem sortedQueue_success (es : List TraceEntry) (s : Nat) (minD maxD : Int)
    (hnd : (es.map (fun e => e.m_id)).Nodup) (hdelay : minD ≤ maxD) :
    ∃ out stF, runProc (sortedEventQueue es s minD maxD) [] = some (out, stF) := by
  have hperm : (sortedEventQueue es s minD maxD).Perm (eventQueue es s minD maxD) :=
    List.perm_insertionSort _ _
  apply runProc_success
  · exact List.sorted_insertionSort evLe _
  · intro m a b ha hb haAS hbRM
    rw [hperm.mem_iff] at ha hb
    simp only [isASb, Bool.and_eq_true, beq_iff_eq] at haAS
    simp only [isRMb, Bool.and_eq_true, beq_iff_eq, Bool.not_eq_true',
      beq_eq_false_iff_ne] at hbRM
    obtain ⟨e1, he1, hs1, rfl⟩ := rank0_mem_eventQueue ha haAS.1
    obtain ⟨e2, he2, hs2, rfl⟩ := rankRM_mem_eventQueue hb hbRM.1.1 hbRM.1.2
    have h1 : e1.m_id = m := haAS.2
    have h2 : e2.m_id = m := hbRM.2
    have hee : e1 = e2 := List.inj_on_of_nodup_map hnd he1 he2 (by rw [h1, h2])
    rw [hee]
    exact evLt_AS_RM e2 hdelay
  · intro m
    rw [hperm.countP_eq, countP_eventQueue_RM]
    exact le_trans
      (List.countP_mono_left (fun e _ hpe => by
        rw [Bool.and_eq_true] at hpe
        exact hpe.2))
      (countP_mid_le_one hnd m)
  · intro m hm
    obtain ⟨b, hb, hbRM⟩ := hm
    left
    rw [hperm.mem_iff] at hb
    simp only [isRMb, Bool.and_eq_true, beq_iff_eq, Bool.not_eq_true',
      beq_eq_false_iff_ne] at hbRM
    obtain ⟨e, he, hsrc, rfl⟩ := rankRM_mem_eventQueue hb hbRM.1.1 hbRM.1.2
    refine ⟨addSourceEvent minD e, hperm.mem_iff.mpr (mem_eventQueue_AS he hsrc), ?_⟩
    have hm' : e.m_id = m := hbRM.2
    simp [isASb, addSourceEvent, hm']

theorem runProc_cons_rank0 (ev : ProcessingEvent) (rest : List ProcessingEvent)
    (st : List (Nat × List Nat)) (h0 : ev.rank = 0) :
    runProc (ev :: rest) st = runProc rest ((ev.m_id, []) :: st) := by
  have hstep : stepEvent st ev = some (none, (ev.m_id, []) :: st) := by
    simp [stepEvent, h0]
  conv_lhs => rw [runProc.eq_def]
  simp only [hstep]
  cases h : runProc rest ((ev.m_id, []) :: st) with
  | none => rfl
  | some r =>
    obtain ⟨o, f⟩ := r
    simp

theorem runProc_cons_remove (ev : ProcessingEvent) (rest : List ProcessingEvent)
    (st : List (Nat × List Nat)) (a : List Nat) (h0 : ¬ev.rank = 0)
    (h1 : ¬ev.rank = 1) (ha : st.lookup ev.m_id = some a) :
    runProc (ev :: rest) st
      = match runProc rest (st.eraseP (fun p => decide (p.1 = ev.m_id))) with
        | none => none
        | some r => some ((ev.m_id, a) :: r.1, r.2) := by
  have hstep : stepEvent st ev
      = some (some (ev.m_id, a), st.eraseP (fun p => decide (p.1 = ev.m_id))) := by
    simp only [stepEvent, if_neg h0, if_neg h1, ha]
  conv_lhs => rw [runProc.eq_def]
  simp only [hstep]
  cases h : runProc rest (st.eraseP (fun p => decide (p.1 = ev.m_id))) with
  | none => rfl
  | some r =>
    obtain ⟨o, f⟩ := r
    simp

theorem runProc_emission {m : Nat} (L1 L2 L3 : List ProcessingEvent)
    (asEv rmEv : ProcessingEvent)
    (hAS0 : asEv.rank = 0) (hASm : asEv.m_id = m)
    (hRMr : ¬rmEv.rank = 0) (hRMr1 : ¬rmEv.rank = 1) (hRMm : rmEv.m_id = m)
    (hnoASL2 : ∀ x ∈ L2, ¬ isASb m x = true)
    (hnoRML1 : ∀ x ∈ L1, ¬ isRMb m x = true)
    (hnoRML2 : ∀ x ∈ L2, ¬ isRMb m x = true)
    (out stF : List (Nat × List Nat))
    (hrun : runProc (L1 ++ asEv :: (L2 ++ rmEv :: L3)) [] = some (out, stF)) :
    out.lookup m = some (destAdds L2) := by
  rw [runProc_append] at hrun
  cases h1 : runProc L1 [] with
  | none => rw [h1] at hrun; cases hrun
  | some r1 =>
    obtain ⟨out1, st1⟩ := r1
    rw [h1] at hrun
    simp only at hrun
    rw [runProc_cons_rank0 asEv _ st1 hAS0] at hrun
    rw [runProc_append] at hrun
    cases h2 : runProc (L2 : List ProcessingEvent) ((asEv.m_id, ([] : List Nat)) :: st1) with
    | none => rw [h2] at hrun; cases hrun
    | some r2 =>
      obtain ⟨out2, st2⟩ := r2
      rw [h2] at hrun
      simp only at hrun
      have hnoAS2 : ∀ ev ∈ L2, ev.rank = 0 → ev.m_id ≠ m := by
        intro ev hev h0 hmeq
        exact hnoASL2 ev hev (by simp [isASb, h0, hmeq])
      have hnoRM2 : ∀ ev ∈ L2, ¬ev.rank = 0 → ¬ev.rank = 1 → ev.m_id ≠ m := by
        intro ev hev h0 h1x hmeq
        exact hnoRML2 ev hev (by simp [isRMb, h0, h1x, hmeq])
      have hlk0 : ((asEv.m_id, ([] : List Nat)) :: st1).lookup m = some [] := by
        rw [lookup_cons_ite]
        simp [hASm]
      have hlive := runProc_live L2 _ [] out2 st2 hnoAS2 hnoRM2 hlk0 h2
      simp only [List.nil_append] at hlive
      have hlk2 : st2.lookup rmEv.m_id = some (destAdds L2) := by
        rw [hRMm, hlive]
      rw [runProc_cons_remove rmEv L3 st2 (destAdds L2) hRMr hRMr1 hlk2] at hrun
      cases h3 : runProc L3 (st2.eraseP (fun p => decide (p.1 = rmEv.m_id))) with
      | none => rw [h3] at hrun; cases hrun
      | some r3 =>
        obtain ⟨out3, stF3⟩ := r3
        rw [h3] at hrun
        simp only [Option.some.injEq, Prod.mk.injEq] at hrun
        obtain ⟨hout, -⟩ := hrun
        rw [← hout]
        have hk1 : m ∉ out1.map (fun p => p.1) := by
          intro hmem
          obtain ⟨ev, hev, hr0, hr1, hmid⟩ := runProc_out_keys L1 [] out1 st1 h1 m hmem
          exact hnoRML1 ev hev (by simp [isRMb, hr0, hr1, hmid])
        have hk2 : m ∉ out2.map (fun p => p.1) := by
          intro hmem
          obtain ⟨ev, hev, hr0, hr1, hmid⟩ := runProc_out_keys L2 _ out2 st2 h2 m hmem
          exact hnoRML2 ev hev (by simp [isRMb, hr0, hr1, hmid])
        rw [lookup_append_left_none _ _ hk1, lookup_append_left_none _ _ hk2,
          lookup_cons_ite]
        simp [hRMm]

/-- C2 (amended): for every built trace and every pair of delays with
min_delay ≤ max_delay, the per-message window anonymity set A(m) accumulated
by compute_message_anonymity_sets for a source message m contains exactly
those trace messages whose destination_timestamp lies in the closed interval
from source_timestamp(m) + min_delay to source_timestamp(m) + max_delay plus
one nanosecond, both endpoints inclusive. The upper endpoint is one
nanosecond beyond the claimed one: the implementation adds
Duration::nanoseconds(1) to max_delay before scheduling the
RemoveSourceMessage events, and the tie-break of
ProcessingEvent::partial_cmp orders an AddDestinationMessage before a
RemoveSourceMessage with the same timestamp, so a message arriving exactly
at source_timestamp(m) + max_delay + 1ns is still added to A(m). -/
theorem message_anon_sets_window_amended (es0 : List TraceEntry) (t : Trace)
    (s : Nat) (minD maxD : Int)
    (hbuild : TraceBuilder.build es0 = .ok t) (hdelay : minD ≤ maxD)
    (em : TraceEntry) (hm : em ∈ t.entries) (hs : em.source_id = s)
    (ed : TraceEntry) (hd : ed ∈ t.entries) :
    ∃ E A, messageAnonSets t.entries s minD maxD = some E ∧
      E.lookup em.m_id = some A ∧
      (∀ x ∈ A, x ∈ t.entries.map (fun e => e.m_id)) ∧
      (ed.m_id ∈ A ↔
        em.source_timestamp + minD ≤ ed.destination_timestamp ∧
        ed.destination_timestamp ≤ em.source_timestamp + maxD + 1) := by
  have hnd := build_ok_nodup hbuild
  have hperm : (sortedEventQueue t.entries s minD maxD).Perm
      (eventQueue t.entries s minD maxD) := List.perm_insertionSort _ _
  have hpw : List.Pairwise evLe (sortedEventQueue t.entries s minD maxD) :=
    List.sorted_insertionSort evLe _
  obtain ⟨out, stF, hrun⟩ := sortedQueue_success t.entries s minD maxD hnd hdelay
  obtain ⟨L1, M, hQ1⟩ :=
    List.append_of_mem (hperm.mem_iff.mpr (mem_eventQueue_AS hm hs))
  have hASself : isASb em.m_id (addSourceEvent minD em) = true := by
    simp [isASb, addSourceEvent]
  have hcntAS : (sortedEventQueue t.entries s minD maxD).countP (isASb em.m_id)
      ≤ 1 := by
    rw [hperm.countP_eq, countP_eventQueue_AS]
    exact le_trans (List.countP_mono_left (fun e _ hpe => by
      rw [Bool.and_eq_true] at hpe
      exact hpe.2)) (countP_mid_le_one hnd em.m_id)
  have hnoASL1M : L1.countP (isASb em.m_id) = 0 ∧ M.countP (isASb em.m_id) = 0 := by
    rw [hQ1, List.countP_append, List.countP_cons, hASself, if_pos rfl] at hcntAS
    omega
  rw [hQ1] at hpw
  obtain ⟨hpwL1, hpwASM, hcross1⟩ := List.pairwise_append.mp hpw
  rw [List.pairwise_cons] at hpwASM
  obtain ⟨hASle, hpwM⟩ := hpwASM
  have hRMQ : removeSourceEvent maxD em ∈ L1 ++ addSourceEvent minD em :: M := by
    rw [← hQ1]
    exact hperm.mem_iff.mpr (mem_eventQueue_RM hm hs)
  have hASRMne : ¬ (removeSourceEvent maxD em = addSourceEvent minD em) := by
    intro h
    have := congrArg ProcessingEvent.rank h
    simp [removeSourceEvent, addSourceEvent] at this
  have hRMinM : removeSourceEvent maxD em ∈ M := by
    rcases List.mem_append.mp hRMQ with hmem | hmem
    · exact absurd (evLt_AS_RM em hdelay)
        (hcross1 _ hmem (addSourceEvent minD em) (List.mem_cons_self _ _))
    · rcases List.mem_cons.mp hmem with heq | hmem2
      · exact absurd heq hASRMne
      · exact hmem2
  obtain ⟨L2, L3, hM2⟩ := List.append_of_mem hRMinM
  have hQ : sortedEventQueue t.entries s minD maxD
      = L1 ++ addSourceEvent minD em
          :: (L2 ++ removeSourceEvent maxD em :: L3) := by
    rw [hQ1, hM2]
  have hRMself : isRMb em.m_id (removeSourceEvent maxD em) = true := by
    simp [isRMb, removeSourceEvent]
  have hcntRM : (sortedEventQueue t.entries s minD maxD).countP (isRMb em.m_id)
      ≤ 1 := by
    rw [hperm.countP_eq, countP_eventQueue_RM]
    exact le_trans (List.countP_mono_left (fun e _ hpe => by
      rw [Bool.and_eq_true] at hpe
      exact hpe.2)) (countP_mid_le_one hnd em.m_id)
  have hnoRM : L1.countP (isRMb em.m_id) = 0 ∧ L2.countP (isRMb em.m_id) = 0
      ∧ L3.countP (isRMb em.m_id) = 0 := by
    have hASRM : isRMb em.m_id (addSourceEvent minD em) = false := by
      simp [isRMb, addSourceEvent]
    rw [hQ, List.countP_append, List.countP_cons, hASRM, if_neg (by simp),
      List.countP_append, List.countP_cons, hRMself, if_pos rfl] at hcntRM
    omega
  rw [hM2] at hpwM
  obtain ⟨hpwL2, hpwRM3, hcross2⟩ := List.pairwise_append.mp hpwM
  rw [List.pairwise_cons] at hpwRM3
  obtain ⟨hRMle, hpwL3⟩ := hpwRM3
  have hL2sub : ∀ ev, ev ∈ L2 → ev ∈ eventQueue t.entries s minD maxD := by
    intro ev hx
    refine hperm.mem_iff.mp ?_
    rw [hQ]
    exact List.mem_append.mpr (Or.inr (List.mem_cons_of_mem _
      (List.mem_append.mpr (Or.inl hx))))
  rw [hQ] at hrun
  have hlookup : out.lookup em.m_id = some (destAdds L2) := by
    refine runProc_emission L1 L2 L3 (addSourceEvent minD em)
      (removeSourceEvent maxD em) rfl
      (show (addSourceEvent minD em).m_id = em.m_id from rfl) ?_ ?_
      (show (removeSourceEvent maxD em).m_id = em.m_id from rfl) ?_ ?_ ?_
      out stF hrun
    · simp [removeSourceEvent]
    · simp [removeSourceEvent]
    · intro x hx
      have hsplit := hnoASL1M.2
      rw [hM2, List.countP_append] at hsplit
      have h0 : L2.countP (isASb em.m_id) = 0 := by omega
      exact (List.countP_eq_zero.mp h0) x hx
    · exact fun x hx => (List.countP_eq_zero.mp hnoRM.1) x hx
    · exact fun x hx => (List.countP_eq_zero.mp hnoRM.2.1) x hx
  refine ⟨out, destAdds L2, ?_, hlookup, ?_, ?_⟩
  · rw [messageAnonSets, hQ, hrun]
    rfl
  · intro x hx
    simp only [destAdds, List.mem_map, List.mem_filter] at hx
    obtain ⟨ev, ⟨hevL2, hrank⟩, hmid⟩ := hx
    obtain ⟨e, he, hev⟩ := rank1_mem_eventQueue (hL2sub ev hevL2) (by simpa using hrank)
    rw [hev] at hmid
    rw [← hmid]
    exact List.mem_map_of_mem _ he
  · constructor
    · intro hmem
      simp only [destAdds, List.mem_map, List.mem_filter] at hmem
      obtain ⟨ev, ⟨hevL2, hrank⟩, hmid⟩ := hmem
      obtain ⟨e, he, hev⟩ := rank1_mem_eventQueue (hL2sub ev hevL2)
        (by simpa using hrank)
      rw [hev] at hmid
      have hee : e = ed := List.inj_on_of_nodup_map hnd he hd hmid
      rw [hev, hee] at hevL2
      constructor
      · have hle := hASle _ (by rw [hM2]; exact List.mem_append.mpr (Or.inl hevL2))
        unfold evLe at hle
        rw [evLt_AD_AS_iff] at hle
        omega
      · have hle := hcross2 _ hevL2 _ (List.mem_cons_self _ _)
        unfold evLe at hle
        rw [evLt_RM_AD_iff] at hle
        omega
    · intro hineq
      have hADQ : addDestEvent ed ∈ L1 ++ addSourceEvent minD em
          :: (L2 ++ removeSourceEvent maxD em :: L3) := by
        rw [← hQ]
        exact hperm.mem_iff.mpr (mem_eventQueue_AD hd)
      have hADL2 : addDestEvent ed ∈ L2 := by
        rcases List.mem_append.mp hADQ with h1m | hrest
        · exfalso
          have hle := hcross1 _ h1m (addSourceEvent minD em) (List.mem_cons_self _ _)
          unfold evLe at hle
          rw [evLt_AS_AD_iff] at hle
          omega
        · rcases List.mem_cons.mp hrest with heq | hM'
          · exfalso
            have := congrArg ProcessingEvent.rank heq
            simp [addDestEvent, addSourceEvent] at this
          · rcases List.mem_append.mp hM' with h2m | h3m
            · exact h2m
            · rcases List.mem_cons.mp h3m with heq | h3m2
              · exfalso
                have := congrArg ProcessingEvent.rank heq
                simp [addDestEvent, removeSourceEvent] at this
              · exfalso
                have hle := hRMle _ h3m2
                unfold evLe at hle
                rw [evLt_AD_RM_iff] at hle
                omega
      simp only [destAdds, List.mem_map, List.mem_filter]
      exact ⟨addDestEvent ed, ⟨hADL2, by simp [addDestEvent]⟩, rfl⟩

/-- C2 counterexample: the claim is false on the code. For the one-entry
built trace whose message 0 has source_timestamp 0 and
destination_timestamp 1, with min_delay = max_delay = 0, the claimed window
is [0, 0], which contains no destination timestamp, so the claim demands
A(0) empty; but the code emits A(0) = {0}: message 0 arrives at
destination_timestamp 1 = source_timestamp + max_delay + 1ns, exactly on the
one-nanosecond overshoot of the implemented window. -/
theorem message_anon_sets_counterexample :
    TraceBuilder.build [⟨0, 0, 0, 1, 1⟩] = .ok ⟨[⟨0, 0, 0, 1, 1⟩], 0, [0], [1], 0⟩ ∧
    messageAnonSets [⟨0, 0, 0, 1, 1⟩] 0 0 0 = some [(0, [0])] ∧
    (0 : Nat) ∈ [0] ∧ ¬((1 : Int) ≤ 0 + 0) := by
  refine ⟨rfl, rfl, ?_, ?_⟩ <;> decide

/-- C2 witness: the amended window theorem applied to the same concrete
one-entry trace: message 0 is in its own window anonymity set because its
destination timestamp 1 lies in the implemented interval [0, 1]. -/
theorem message_anon_sets_window_amended_witness :
    ∃ E A, messageAnonSets [⟨0, 0, 0, 1, 1⟩] 0 0 0 = some E ∧
      E.lookup 0 = some A ∧
      (∀ x ∈ A, x ∈ ([⟨0, 0, 0, 1, 1⟩] : List TraceEntry).map (fun e => e.m_id)) ∧
      ((0 : Nat) ∈ A ↔ (0 : Int) + 0 ≤ 1 ∧ (1 : Int) ≤ 0 + 0 + 1) :=
  message_anon_sets_window_amended [⟨0, 0, 0, 1, 1⟩]
    ⟨[⟨0, 0, 0, 1, 1⟩], 0, [0], [1], 0⟩ 0 0 0 rfl (by decide)
    ⟨0, 0, 0, 1, 1⟩ (by decide) rfl ⟨0, 0, 0, 1, 1⟩ (by decide)
